import Mathlib

/-
Verification of the generic-mongodb-services CRUD layer.

The development shallowly embeds the two service classes of the repository,
GenericCrudService (src/GenericCrudService.js) and the audited subclass
AuditedCrudService (src/AuditedCrudService.js, first class in the file, which
is the version the line references of the specification point at).

Modelling conventions:
- A JSON/BSON value is the inductive type Value; a JS object is an ordered
  association list of string keys (type Doc), mirroring JS insertion order.
  Plain JS objects never hold two entries with one key; theorems that need
  this carry an explicit Nodup hypothesis on the key list.
- A collection is a list of documents; the driver primitives findOne,
  findOneAndUpdate, findOneAndDelete and insertOne act on the first match in
  list order.  These primitives belong to the external mongodb driver, so
  they are modelled from their documented behaviour, restricted to the
  operator fragment the repository actually sends.
- Every clock read (new Date()) inside one service call is modelled by a
  single instant, the parameter now.
- In-place mutation of caller-supplied argument objects is modelled with a
  small heap of numbered object cells (type Heap); the Ref variants of the
  operations thread that heap exactly where the source mutates arguments.
-/

/-- A JSON/BSON value as manipulated by the service layer.  vUndef models the
JS value undefined, which the patch operation strips; vNull models null. -/
inductive Value where
  | vNull
  | vUndef
  | vBool (b : Bool)
  | vInt (n : Int)
  | vStr (s : String)
  | vId (n : Nat)
  | vDate (t : Nat)
  | vArr (xs : List Value)
  | vDoc (fields : List (String × Value))

mutual

/-- Structural equality test on values (deep equality, as the driver uses for
equality filters). -/
def Value.beq : Value → Value → Bool
  | .vNull, .vNull => true
  | .vUndef, .vUndef => true
  | .vBool a, .vBool b => a == b
  | .vInt a, .vInt b => a == b
  | .vStr a, .vStr b => a == b
  | .vId a, .vId b => a == b
  | .vDate a, .vDate b => a == b
  | .vArr a, .vArr b => Value.beqList a b
  | .vDoc a, .vDoc b => Value.beqFields a b
  | _, _ => false

/-- Elementwise equality of value lists. -/
def Value.beqList : List Value → List Value → Bool
  | [], [] => true
  | a :: as, b :: bs => Value.beq a b && Value.beqList as bs
  | _, _ => false

/-- Entrywise equality of field lists. -/
def Value.beqFields : List (String × Value) → List (String × Value) → Bool
  | [], [] => true
  | (k, a) :: as, (l, b) :: bs => k == l && Value.beq a b && Value.beqFields as bs
  | _, _ => false

end

/-- Is this value the JS undefined marker. -/
def Value.isUndef : Value → Bool
  | .vUndef => true
  | _ => false

/-- A JS object: ordered association list of fields, insertion order kept. -/
abbrev Doc := List (String × Value)

/-- Read a key from an association list (first entry wins, as in a JS object
whose keys are unique). -/
def assocGet {κ α : Type} [DecidableEq κ] : List (κ × α) → κ → Option α
  | [], _ => none
  | kv :: rest, k => if kv.1 = k then some kv.2 else assocGet rest k

/-- JS assignment obj[k] = v: overwrite the entry in place when the key is
present, append it at the end otherwise. -/
def assocSet {κ α : Type} [DecidableEq κ] : List (κ × α) → κ → α → List (κ × α)
  | [], k, v => [(k, v)]
  | kv :: rest, k, v => if kv.1 = k then (k, v) :: rest else kv :: assocSet rest k v

/-- JS delete obj[k]: drop the entry carrying the key. -/
def assocDelete {κ α : Type} [DecidableEq κ] : List (κ × α) → κ → List (κ × α)
  | [], _ => []
  | kv :: rest, k => if kv.1 = k then assocDelete rest k else kv :: assocDelete rest k

/-- JS update of one entry through a function, leaving the other keys alone
(models obj[k].field = v on an existing nested object). -/
def assocModify {κ α : Type} [DecidableEq κ] : List (κ × α) → κ → (α → α) → List (κ × α)
  | [], _, _ => []
  | kv :: rest, k, f =>
    if kv.1 = k then (kv.1, f kv.2) :: assocModify rest k f
    else kv :: assocModify rest k f

/-- Key list of an object, in order. -/
def objKeys {α : Type} (m : List (String × α)) : List String :=
  m.map Prod.fst

/-- Model of the JS String method startsWith, on code units. -/
def jsStartsWith (s pre : String) : Bool :=
  pre.data.isPrefixOf s.data

/-- An update-operations object as sent to findOneAndUpdate: operator name
mapped to its payload object, in insertion order. -/
abbrev UpdateOps := List (String × Doc)

/-- Sequential field assignment, the store semantics of a set payload. -/
def setAll (d : Doc) (kvs : Doc) : Doc :=
  kvs.foldl (fun acc kv => assocSet acc kv.1 kv.2) d

/-- Append a value to an array-valued field (store semantics of one push
entry); a missing field becomes a fresh one-element array. -/
def pushField (d : Doc) (k : String) (v : Value) : Doc :=
  match assocGet d k with
  | some (Value.vArr xs) => assocSet d k (Value.vArr (xs ++ [v]))
  | some _ => d
  | none => assocSet d k (Value.vArr [v])

/-- Store semantics of one update operator applied to a document.  The
repository only ever sends the set, unset, push and pull operators; pull and
any operator outside this fragment are left abstract (no claim under
verification depends on their document-level effect). -/
def applyOp (d : Doc) (op : String × Doc) : Doc :=
  if op.1 = "$set" then setAll d op.2
  else if op.1 = "$unset" then op.2.foldl (fun acc kv => assocDelete acc kv.1) d
  else if op.1 = "$push" then op.2.foldl (fun acc kv => pushField acc kv.1 kv.2) d
  else d

/-- Store semantics of a whole update-operations object. -/
def applyUpdate (u : UpdateOps) (d : Doc) : Doc :=
  u.foldl applyOp d

/-- Driver primitive findOneAndUpdate: update the first document satisfying
the filter, return the new collection and the pre- or post-image according to
returnOriginal. -/
def findOneAndUpdate (p : Doc → Bool) (u : UpdateOps) (returnOriginal : Bool) :
    List Doc → List Doc × Option Doc
  | [] => ([], none)
  | d :: rest =>
    if p d then
      let d' := applyUpdate u d
      (d' :: rest, some (if returnOriginal then d else d'))
    else
      let r := findOneAndUpdate p u returnOriginal rest
      (d :: r.1, r.2)

/-- Driver primitive findOneAndDelete: remove the first document satisfying
the filter and return it. -/
def findOneAndDelete (p : Doc → Bool) : List Doc → List Doc × Option Doc
  | [] => ([], none)
  | d :: rest =>
    if p d then (rest, some d)
    else
      let r := findOneAndDelete p rest
      (d :: r.1, r.2)

/-- Field name holding the creation timestamp (creationDateField getter). -/
def creationDateField : String := "createdAt"

/-- Field name holding the last-modification timestamp (modificationDateField
getter). -/
def modificationDateField : String := "lastModifiedAt"

/-- GenericCrudService.create: stamp the creation date into the document and
insert it; returns the new collection and the stored document. -/
def GenericCrudService.create (document : Doc) (now : Nat) (coll : List Doc) :
    List Doc × Doc :=
  let document := assocSet document creationDateField (Value.vDate now)
  (coll ++ [document], document)

/-- The update preprocessing of GenericCrudService.update: create an empty
set clause when none is present, then write the modification date into it. -/
def stampSet (u : UpdateOps) (now : Nat) : UpdateOps :=
  let u := if (assocGet u "$set").isSome then u else assocSet u "$set" []
  assocModify u "$set" (fun payload => assocSet payload modificationDateField (Value.vDate now))

/-- GenericCrudService.update: stamp the set clause and delegate to
findOneAndUpdate; options carry an optional returnOriginal overriding the
default false. -/
def GenericCrudService.update (p : Doc → Bool) (u : UpdateOps)
    (returnOriginal : Option Bool) (now : Nat) (coll : List Doc) :
    List Doc × Option Doc :=
  findOneAndUpdate p (stampSet u now) (returnOriginal.getD false) coll

/-- The undefined-stripping loop of GenericCrudService.patch: drop every
entry whose value is the JS undefined. -/
def cleanData (data : Doc) : Doc :=
  data.filter (fun kv => !kv.2.isUndef)

/-- Data object of GenericCrudService.patch after its in-place preprocessing:
undefined entries removed, modification date stamped. -/
def patchData (data : Doc) (now : Nat) : Doc :=
  assocSet (cleanData data) modificationDateField (Value.vDate now)

/-- GenericCrudService.patch: clean the data, stamp the date and issue a
pure set update through findOneAndUpdate. -/
def GenericCrudService.patch (p : Doc → Bool) (data : Doc)
    (returnOriginal : Option Bool) (now : Nat) (coll : List Doc) :
    List Doc × Option Doc :=
  findOneAndUpdate p [("$set", patchData data now)] (returnOriginal.getD false) coll

/-- Document-level effect of GenericCrudService.patch on the matched record. -/
def patchApply (data : Doc) (now : Nat) (d : Doc) : Doc :=
  setAll d (patchData data now)

/-- GenericCrudService.remove: delegate to findOneAndDelete. -/
def GenericCrudService.remove (p : Doc → Bool) (coll : List Doc) :
    List Doc × Option Doc :=
  findOneAndDelete p coll

/-- One step of the key-rewriting loops of patchSubdocument: a key that does
not start with the given dotted prefix is re-assigned under the prefixed name
and deleted, a key already carrying the prefix is left alone. -/
def rewriteStep (pre : String) (st : Doc) (k : String) : Doc :=
  if jsStartsWith k pre then st
  else
    match assocGet st k with
    | none => st
    | some v => assocDelete (assocSet st (pre ++ k) v) k

/-- The key-rewriting loop of patchSubdocument: iterate over the keys the
object had when the loop started (for..in snapshot) updating the object in
place. -/
def rewriteKeys (pre : String) (o : Doc) : Doc :=
  (objKeys o).foldl (rewriteStep pre) o

/-- The elementQuery object of patchSubdocument after its rewriting and the
insertion of the parent identifier. -/
def patchSubdocumentQuery (idv : Value) (embeddedField : String) (query : Doc) : Doc :=
  assocSet (rewriteKeys (embeddedField ++ ".") query) "_id" idv

/-- The partialFields object of patchSubdocument after its rewriting. -/
def patchSubdocumentData (embeddedField : String) (data : Doc) : Doc :=
  rewriteKeys (embeddedField ++ ".$.") data

/-- GenericCrudService.patchSubdocument: rewrite both argument objects, add
the parent identifier to the query and delegate to patch.  The translation of
the rewritten query document into a store filter belongs to the driver and is
passed in as interp. -/
def GenericCrudService.patchSubdocument (idv : Value) (embeddedField : String)
    (query : Doc) (data : Doc) (interp : Doc → Doc → Bool)
    (returnOriginal : Option Bool) (now : Nat) (coll : List Doc) :
    List Doc × Option Doc :=
  let query := patchSubdocumentQuery idv embeddedField query
  let data := patchSubdocumentData embeddedField data
  GenericCrudService.patch (interp query) data returnOriginal now coll

/-- Filter used by the match stage of listSubdocuments: documents whose _id
field deep-equals the requested identifier. -/
def idFilter (idv : Value) (d : Doc) : Bool :=
  match assocGet d "_id" with
  | some v => Value.beq v idv
  | none => false

/-- The projection stage of listSubdocuments: keep _id and replace the
embedded array by its elements satisfying the per-element condition.  A
parent without an array under the field projects to null there; that path is
outside every claim under verification. -/
def projectFiltered (embeddedField : String) (cond : Value → Bool) (d : Doc) : Doc :=
  match assocGet d embeddedField with
  | some (Value.vArr xs) =>
    [("_id", (assocGet d "_id").getD Value.vNull), (embeddedField, Value.vArr (xs.filter cond))]
  | _ => [("_id", (assocGet d "_id").getD Value.vNull), (embeddedField, Value.vNull)]

/-- GenericCrudService.listSubdocuments: aggregate a match on _id with the
filtering projection, take the first result object, and return its array
when that array is non-empty, null otherwise (the final ternary of the
source; the dead early return on an always-truthy array is omitted). -/
def GenericCrudService.listSubdocuments (idv : Value) (embeddedField : String)
    (cond : Value → Bool) (coll : List Doc) : Option (List Value) :=
  let objects := (coll.filter (idFilter idv)).map (projectFiltered embeddedField cond)
  match objects.head? with
  | none => none
  | some object =>
    match assocGet object embeddedField with
    | some (Value.vArr xs) => if 0 < xs.length then some xs else none
    | _ => none

/-- Shape of one audit document.  The old and new components are none when
the source writes no such key at all, and some vNull when the source writes
the key with a null value. -/
structure AuditEntry where
  operation : String
  old : Option Value
  new : Option Value
  user : String
  timestamp : Nat

/-- Joint state of the data collection and the audit collection. -/
structure AuditedState where
  coll : List Doc
  audits : List AuditEntry

/-- JS interpolation of a possibly-null document into an audit field. -/
def optDoc : Option Doc → Value
  | some d => Value.vDoc d
  | none => Value.vNull

/-- Operation tag of the CREATE getter. -/
def opCREATE : String := "CREATE"

/-- Operation tag of the UPDATE getter. -/
def opUPDATE : String := "UPDATE"

/-- Operation tag of the REMOVE getter. -/
def opREMOVE : String := "REMOVE"

/-- AuditedCrudService.create: delegate to the parent create, then insert one
CREATE audit document carrying the stored record under new and no old key. -/
def AuditedCrudService.create (document : Doc) (user : String) (now : Nat)
    (s : AuditedState) : AuditedState × Doc :=
  let r := GenericCrudService.create document now s.coll
  (⟨r.1, s.audits ++ [⟨opCREATE, none, some (Value.vDoc r.2), user, now⟩]⟩, r.2)

/-- AuditedCrudService.patch: read the pre-image first; stop returning
nothing when there is none; otherwise run the parent patch and insert one
UPDATE audit document with both images. -/
def AuditedCrudService.patch (p : Doc → Bool) (data : Doc)
    (returnOriginal : Option Bool) (user : String) (now : Nat)
    (s : AuditedState) : AuditedState × Option Doc :=
  match s.coll.find? p with
  | none => (s, none)
  | some oldDoc =>
    let r := GenericCrudService.patch p data returnOriginal now s.coll
    (⟨r.1, s.audits ++ [⟨opUPDATE, some (Value.vDoc oldDoc), some (optDoc r.2), user, now⟩]⟩,
      r.2)

/-- AuditedCrudService.update: same pre-image protocol as patch, around the
parent update. -/
def AuditedCrudService.update (p : Doc → Bool) (u : UpdateOps)
    (returnOriginal : Option Bool) (user : String) (now : Nat)
    (s : AuditedState) : AuditedState × Option Doc :=
  match s.coll.find? p with
  | none => (s, none)
  | some oldDoc =>
    let r := GenericCrudService.update p u returnOriginal now s.coll
    (⟨r.1, s.audits ++ [⟨opUPDATE, some (Value.vDoc oldDoc), some (optDoc r.2), user, now⟩]⟩,
      r.2)

/-- AuditedCrudService.remove: delegate to the parent remove and insert one
REMOVE audit document unconditionally; when nothing matched the old field of
that document carries null. -/
def AuditedCrudService.remove (p : Doc → Bool) (user : String) (now : Nat)
    (s : AuditedState) : AuditedState × Option Doc :=
  let r := GenericCrudService.remove p s.coll
  (⟨r.1, s.audits ++ [⟨opREMOVE, some (optDoc r.2), none, user, now⟩]⟩, r.2)

/-- Member names defined on the GenericCrudService class
(src/GenericCrudService.js). -/
def GenericCrudServiceMembers : List String :=
  ["constructor", "creationDateField", "modificationDateField", "verifyConnection",
   "verifyId", "list", "count", "exists", "create", "get", "getById", "update",
   "updateById", "patch", "patchById", "remove", "removeById", "listSubdocuments",
   "getSubdocument", "addSubdocument", "patchSubdocument", "patchSubdocumentById",
   "removeSubdocument", "removeSubdocumentById"]

/-- Member names defined on the AuditedCrudService class, first version in
src/AuditedCrudService.js (the one the claim line references point at). -/
def AuditedCrudServiceMembers : List String :=
  ["constructor", "CREATE", "UPDATE", "REMOVE", "ANONYMOUS",
   "DEFAULT_AUDIT_COLLECTION_NAME", "verifyConnection", "_generate_audit",
   "create", "patch", "patchById", "update", "updateById", "remove", "removeById",
   "addSubdocument", "patchSubdocument", "patchSubdocumentById",
   "removeSubdocument", "removeSubdocumentById"]

/-- JS method resolution on an AuditedCrudService instance: own class first,
then the parent class. -/
def auditedHasMethod (name : String) : Bool :=
  AuditedCrudServiceMembers.contains name || GenericCrudServiceMembers.contains name

/-- Outcome of a JS call that can raise a TypeError. -/
inductive JsResult (α : Type) where
  | ok (value : α)
  | typeError (message : String)

/-- AuditedCrudService.patchById: the source first evaluates
this.generateObjectId(_id); the call only proceeds into patch with the filter
on _id when such a method resolves, and raises a TypeError otherwise. -/
def AuditedCrudService.patchById (idv : Value) (data : Doc)
    (returnOriginal : Option Bool) (user : String) (now : Nat)
    (s : AuditedState) : JsResult (AuditedState × Option Doc) :=
  if auditedHasMethod "generateObjectId" then
    JsResult.ok (AuditedCrudService.patch (idFilter idv) data returnOriginal user now s)
  else
    JsResult.typeError "this.generateObjectId is not a function"

/-- AuditedCrudService.updateById: same shape as patchById, delegating to
update when generateObjectId resolves. -/
def AuditedCrudService.updateById (idv : Value) (u : UpdateOps)
    (returnOriginal : Option Bool) (user : String) (now : Nat)
    (s : AuditedState) : JsResult (AuditedState × Option Doc) :=
  if auditedHasMethod "generateObjectId" then
    JsResult.ok (AuditedCrudService.update (idFilter idv) u returnOriginal user now s)
  else
    JsResult.typeError "this.generateObjectId is not a function"

/-- AuditedCrudService.removeById: same shape as patchById, delegating to
remove when generateObjectId resolves. -/
def AuditedCrudService.removeById (idv : Value) (user : String) (now : Nat)
    (s : AuditedState) : JsResult (AuditedState × Option Doc) :=
  if auditedHasMethod "generateObjectId" then
    JsResult.ok (AuditedCrudService.remove (idFilter idv) user now s)
  else
    JsResult.typeError "this.generateObjectId is not a function"

/-- A heap of caller-visible JS objects, addressed by cell number. -/
abbrev Heap := List (Nat × Doc)

/-- GenericCrudService.create acting on the caller-supplied document cell:
the creation date is written into that very object before insertion. -/
def GenericCrudService.createRef (docRef : Nat) (now : Nat) (h : Heap)
    (coll : List Doc) : Heap × List Doc × Doc :=
  match assocGet h docRef with
  | none => (h, coll, [])
  | some document =>
    let document := assocSet document creationDateField (Value.vDate now)
    (assocSet h docRef document, coll ++ [document], document)

/-- GenericCrudService.patch acting on the caller-supplied data cell: the
undefined-stripping loop and the date stamping mutate that very object
before it is sent as the set payload. -/
def GenericCrudService.patchRef (p : Doc → Bool) (dataRef : Nat)
    (returnOriginal : Option Bool) (now : Nat) (h : Heap) (coll : List Doc) :
    Heap × List Doc × Option Doc :=
  match assocGet h dataRef with
  | none => (h, coll, none)
  | some data =>
    let data := patchData data now
    let r := findOneAndUpdate p [("$set", data)] (returnOriginal.getD false) coll
    (assocSet h dataRef data, r.1, r.2)

/-- GenericCrudService.patchSubdocument acting on the caller-supplied query
and data cells: both rewriting loops and the _id insertion mutate those very
objects, then the call continues into patch, which mutates the data cell
again. -/
def GenericCrudService.patchSubdocumentRef (idv : Value) (embeddedField : String)
    (queryRef dataRef : Nat) (interp : Doc → Doc → Bool)
    (returnOriginal : Option Bool) (now : Nat) (h : Heap) (coll : List Doc) :
    Heap × List Doc × Option Doc :=
  match assocGet h queryRef, assocGet h dataRef with
  | some query, some data =>
    let query := patchSubdocumentQuery idv embeddedField query
    let data := patchSubdocumentData embeddedField data
    let h := assocSet (assocSet h queryRef query) dataRef data
    GenericCrudService.patchRef (interp query) dataRef returnOriginal now h coll
  | _, _ => (h, coll, none)

/-- GenericCrudService.getSubdocument acting on the caller-supplied
projection cell: Object.assign merges the two inclusion entries into that
very object before the lookup.  The elemMatch filter sent to the store is
abstracted by the predicate p. -/
def GenericCrudService.getSubdocumentRef (p : Doc → Bool) (embeddedField : String)
    (projRef : Nat) (h : Heap) (coll : List Doc) : Heap × Option Value :=
  match assocGet h projRef with
  | none => (h, none)
  | some projection =>
    let projection :=
      assocSet (assocSet projection embeddedField (Value.vInt 1))
        (embeddedField ++ ".$") (Value.vInt 1)
    let h := assocSet h projRef projection
    (h, match coll.find? p with
        | some object =>
          match assocGet object embeddedField with
          | some (Value.vArr (x :: _)) => some x
          | _ => none
        | none => none)

/-- Shape invariant on one audit document: CREATE carries a new image and no
old key, REMOVE carries an old key and no new key, UPDATE carries both. -/
def auditShapeOk (e : AuditEntry) : Prop :=
  (e.operation = opCREATE → e.new.isSome ∧ e.old = none) ∧
  (e.operation = opREMOVE → e.old.isSome ∧ e.new = none) ∧
  (e.operation = opUPDATE → e.old.isSome ∧ e.new.isSome)

theorem assocGet_assocSet_self {κ α : Type} [DecidableEq κ] (m : List (κ × α)) (k : κ) (v : α) :
    assocGet (assocSet m k v) k = some v := by
  induction m with
  | nil => simp [assocGet, assocSet]
  | cons kv rest ih =>
    obtain ⟨a, b⟩ := kv
    by_cases hk : a = k
    · simp [assocSet, assocGet, hk]
    · simp [assocSet, assocGet, hk, ih]

theorem assocGet_assocSet_ne {κ α : Type} [DecidableEq κ] (m : List (κ × α)) (k k' : κ) (v : α)
    (h : k' ≠ k) : assocGet (assocSet m k v) k' = assocGet m k' := by
  have hne : ¬k = k' := fun he => h he.symm
  induction m with
  | nil => simp [assocGet, assocSet, hne]
  | cons kv rest ih =>
    obtain ⟨a, b⟩ := kv
    by_cases hk : a = k
    · simp [assocSet, assocGet, hk, hne]
    · simp [assocSet, assocGet, hk, ih]

theorem assocGet_assocDelete_self {κ α : Type} [DecidableEq κ] (m : List (κ × α)) (k : κ) :
    assocGet (assocDelete m k) k = none := by
  induction m with
  | nil => simp [assocGet, assocDelete]
  | cons kv rest ih =>
    obtain ⟨a, b⟩ := kv
    by_cases hk : a = k
    · simpa [assocDelete, hk] using ih
    · simpa [assocDelete, assocGet, hk] using ih

theorem assocGet_assocDelete_ne {κ α : Type} [DecidableEq κ] (m : List (κ × α)) (k k' : κ)
    (h : k' ≠ k) : assocGet (assocDelete m k) k' = assocGet m k' := by
  induction m with
  | nil => simp [assocGet, assocDelete]
  | cons kv rest ih =>
    obtain ⟨a, b⟩ := kv
    by_cases hk : a = k
    · have hkk' : ¬k = k' := fun he => h he.symm
      simpa [assocDelete, assocGet, hk, hkk'] using ih
    · by_cases hk' : a = k'
      · simp [assocDelete, assocGet, hk, hk', h]
      · simpa [assocDelete, assocGet, hk, hk'] using ih

theorem assocGet_assocModify {κ α : Type} [DecidableEq κ] (m : List (κ × α)) (k : κ) (f : α → α) :
    assocGet (assocModify m k f) k = (assocGet m k).map f := by
  induction m with
  | nil => simp [assocGet, assocModify]
  | cons kv rest ih =>
    obtain ⟨a, b⟩ := kv
    by_cases hk : a = k
    · simp [assocModify, assocGet, hk]
    · simp [assocModify, assocGet, hk, ih]

theorem assocGet_assocModify_ne {κ α : Type} [DecidableEq κ] (m : List (κ × α)) (k k' : κ)
    (f : α → α) (h : k' ≠ k) : assocGet (assocModify m k f) k' = assocGet m k' := by
  induction m with
  | nil => simp [assocGet, assocModify]
  | cons kv rest ih =>
    obtain ⟨a, b⟩ := kv
    by_cases hk : a = k
    · have hkk' : ¬k = k' := fun he => h he.symm
      simp [assocModify, assocGet, hk, hkk', ih]
    · by_cases hk' : a = k'
      · simp [assocModify, assocGet, hk, hk', h]
      · simp [assocModify, assocGet, hk, hk', ih]

theorem assocGet_eq_none_iff {κ α : Type} [DecidableEq κ] (m : List (κ × α)) (k : κ) :
    assocGet m k = none ↔ ∀ kv ∈ m, kv.1 ≠ k := by
  induction m with
  | nil => simp [assocGet]
  | cons kv rest ih =>
    obtain ⟨a, b⟩ := kv
    by_cases h : a = k
    · simp [assocGet, h]
    · simp [assocGet, h, ih]

theorem assocGet_mem {κ α : Type} [DecidableEq κ] {m : List (κ × α)} {k : κ} {v : α}
    (h : assocGet m k = some v) : (k, v) ∈ m := by
  induction m with
  | nil => simp [assocGet] at h
  | cons kv rest ih =>
    obtain ⟨a, b⟩ := kv
    by_cases hk : a = k
    · simp [assocGet, hk] at h
      simp [hk, h]
    · simp [assocGet, hk] at h
      exact List.mem_cons_of_mem _ (ih h)

theorem assocGet_isSome_of_mem_keys {α : Type} {m : List (String × α)} {k : String}
    (h : k ∈ objKeys m) : (assocGet m k).isSome := by
  induction m with
  | nil => simp [objKeys] at h
  | cons kv rest ih =>
    obtain ⟨a, b⟩ := kv
    by_cases hk : a = k
    · simp [assocGet, hk]
    · simp [objKeys, hk] at h
      rcases h with h | h
      · exact absurd h.symm hk
      · simp [assocGet, hk]
        exact ih (by simpa [objKeys] using h)

theorem assocGet_of_mem_nodup {α : Type} {m : List (String × α)} {k : String} {v : α}
    (hnd : (objKeys m).Nodup) (h : (k, v) ∈ m) : assocGet m k = some v := by
  induction m with
  | nil => simp at h
  | cons kv rest ih =>
    obtain ⟨a, b⟩ := kv
    have hnd' : a ∉ objKeys rest ∧ (objKeys rest).Nodup := by
      simpa [objKeys] using hnd
    rcases List.mem_cons.mp h with h | h
    · rcases h with ⟨⟩
      simp [assocGet]
    · have hk : ¬a = k := by
        intro he
        refine hnd'.1 ?_
        rw [he]
        simpa [objKeys] using List.mem_map_of_mem Prod.fst h
      simp [assocGet, hk]
      exact ih hnd'.2 h

theorem mem_assocSet {κ α : Type} [DecidableEq κ] {m : List (κ × α)} {k : κ} {v : α} {kv : κ × α}
    (h : kv ∈ assocSet m k v) : kv = (k, v) ∨ kv ∈ m := by
  induction m with
  | nil => simpa [assocSet] using h
  | cons kv0 rest ih =>
    obtain ⟨a, b⟩ := kv0
    by_cases hk : a = k
    · simp [assocSet, hk] at h
      rcases h with h | h
      · exact Or.inl h
      · exact Or.inr (List.mem_cons_of_mem _ h)
    · simp [assocSet, hk] at h
      rcases h with h | h
      · exact Or.inr (by simp [h])
      · rcases ih h with h' | h'
        · exact Or.inl h'
        · exact Or.inr (List.mem_cons_of_mem _ h')

theorem mem_assocSet_ne {κ α : Type} [DecidableEq κ] {m : List (κ × α)} {k k' : κ} {v v' : α}
    (h : k' ≠ k) : (k', v') ∈ assocSet m k v ↔ (k', v') ∈ m := by
  induction m with
  | nil => simp [assocSet, h]
  | cons kv0 rest ih =>
    obtain ⟨a, b⟩ := kv0
    by_cases hk : a = k
    · constructor
      · intro hm
        simp [assocSet, hk] at hm
        rcases hm with hm | hm
        · exact absurd hm.1 h
        · subst hk
          exact List.mem_cons_of_mem _ hm
      · intro hm
        rcases List.mem_cons.mp hm with hm | hm
        · obtain ⟨h1, h2⟩ := Prod.mk.injEq .. ▸ hm
          exact absurd (hk ▸ h1.symm ▸ rfl) h
        · simp [assocSet, hk]
          exact Or.inr hm
    · simp [assocSet, hk, ih]

theorem mem_assocSet_self {κ α : Type} [DecidableEq κ] (m : List (κ × α)) (k : κ) (v : α) :
    (k, v) ∈ assocSet m k v := by
  induction m with
  | nil => simp [assocSet]
  | cons kv0 rest ih =>
    obtain ⟨a, b⟩ := kv0
    by_cases hk : a = k
    · simp [assocSet, hk]
    · simp [assocSet, hk]
      exact Or.inr ih

theorem objKeys_assocSet {α : Type} (m : List (String × α)) (k : String) (v : α) :
    objKeys (assocSet m k v) = if k ∈ objKeys m then objKeys m else objKeys m ++ [k] := by
  induction m with
  | nil => simp [objKeys, assocSet]
  | cons kv rest ih =>
    obtain ⟨a, b⟩ := kv
    by_cases hk : a = k
    · simp [assocSet, objKeys, hk]
    · have hka : ¬k = a := fun he => hk he.symm
      by_cases hmem : k ∈ objKeys rest
      · simp [assocSet, objKeys, hk, hka, hmem] at ih ⊢
        rw [ih]
        simp [objKeys] at hmem
        simp [hmem, hka]
      · simp [assocSet, objKeys, hk, hka, hmem] at ih ⊢
        rw [ih]
        simp [objKeys] at hmem
        simp [hmem, hka]

theorem assocGet_setAll_not_mem {d kvs : Doc} {k : String} (h : k ∉ objKeys kvs) :
    assocGet (setAll d kvs) k = assocGet d k := by
  induction kvs generalizing d with
  | nil => simp [setAll]
  | cons kv rest ih =>
    obtain ⟨a, b⟩ := kv
    simp [objKeys] at h
    have hrest : k ∉ objKeys rest := by
      simpa [objKeys] using h.2
    calc assocGet (setAll d ((a, b) :: rest)) k
        = assocGet (setAll (assocSet d a b) rest) k := by simp [setAll]
      _ = assocGet (assocSet d a b) k := ih hrest
      _ = assocGet d k := assocGet_assocSet_ne d a k b h.1

theorem assocGet_setAll_mem_nodup {d kvs : Doc} {k : String} {v : Value}
    (hnd : (objKeys kvs).Nodup) (h : (k, v) ∈ kvs) :
    assocGet (setAll d kvs) k = some v := by
  induction kvs generalizing d with
  | nil => simp at h
  | cons kv rest ih =>
    obtain ⟨a, b⟩ := kv
    have hnd' : a ∉ objKeys rest ∧ (objKeys rest).Nodup := by
      simpa [objKeys] using hnd
    rcases List.mem_cons.mp h with h | h
    · rcases h with ⟨⟩
      have : k ∉ objKeys rest := hnd'.1
      calc assocGet (setAll d ((k, v) :: rest)) k
          = assocGet (setAll (assocSet d k v) rest) k := by simp [setAll]
        _ = assocGet (assocSet d k v) k := assocGet_setAll_not_mem this
        _ = some v := assocGet_assocSet_self d k v
    · calc assocGet (setAll d ((a, b) :: rest)) k
          = assocGet (setAll (assocSet d a b) rest) k := by simp [setAll]
        _ = some v := ih hnd'.2 h

theorem isSome_assocSet (d : Doc) (k k' : String) (v : Value)
    (h : (assocGet d k').isSome) : (assocGet (assocSet d k v) k').isSome := by
  by_cases hk : k' = k
  · subst hk
    simp [assocGet_assocSet_self]
  · rwa [assocGet_assocSet_ne d k k' v hk]

theorem isSome_setAll (d kvs : Doc) (k : String)
    (h : (assocGet d k).isSome) : (assocGet (setAll d kvs) k).isSome := by
  induction kvs generalizing d with
  | nil => simpa [setAll]
  | cons kv rest ih =>
    obtain ⟨a, b⟩ := kv
    have : (assocGet (assocSet d a b) k).isSome := isSome_assocSet d a k b h
    simpa [setAll] using ih (assocSet d a b) this

theorem findOneAndUpdate_snd (p : Doc → Bool) (u : UpdateOps) (ro : Bool) (coll : List Doc) :
    (findOneAndUpdate p u ro coll).2 =
      (coll.find? p).map (fun d => if ro then d else applyUpdate u d) := by
  induction coll with
  | nil => simp [findOneAndUpdate]
  | cons d rest ih =>
    by_cases h : p d
    · simp [findOneAndUpdate, h, List.find?_cons_of_pos _ h]
    · simp [findOneAndUpdate, h, List.find?_cons_of_neg _ h, ih]

theorem findOneAndUpdate_of_none (p : Doc → Bool) (u : UpdateOps) (ro : Bool)
    {coll : List Doc} (h : coll.find? p = none) :
    findOneAndUpdate p u ro coll = (coll, none) := by
  induction coll with
  | nil => simp [findOneAndUpdate]
  | cons d rest ih =>
    by_cases hp : p d
    · rw [List.find?_cons_of_pos _ hp] at h
      simp at h
    · rw [List.find?_cons_of_neg _ hp] at h
      simp [findOneAndUpdate, hp, ih h]

theorem findOneAndDelete_snd (p : Doc → Bool) (coll : List Doc) :
    (findOneAndDelete p coll).2 = coll.find? p := by
  induction coll with
  | nil => simp [findOneAndDelete]
  | cons d rest ih =>
    by_cases h : p d
    · simp [findOneAndDelete, h, List.find?_cons_of_pos _ h]
    · simp [findOneAndDelete, h, List.find?_cons_of_neg _ h, ih]

theorem findOneAndDelete_of_none (p : Doc → Bool) {coll : List Doc}
    (h : coll.find? p = none) : findOneAndDelete p coll = (coll, none) := by
  induction coll with
  | nil => simp [findOneAndDelete]
  | cons d rest ih =>
    by_cases hp : p d
    · rw [List.find?_cons_of_pos _ hp] at h
      simp at h
    · rw [List.find?_cons_of_neg _ hp] at h
      simp [findOneAndDelete, hp, ih h]

theorem jsStartsWith_append (pre k : String) : jsStartsWith (pre ++ k) pre = true := by
  simp [jsStartsWith, String.data_append, List.isPrefixOf_iff_prefix]

theorem ne_append_of_not_startsWith {k pre m : String} (h : jsStartsWith k pre = false) :
    k ≠ pre ++ m := by
  intro he
  rw [he, jsStartsWith_append] at h
  cases h

theorem string_append_left_cancel {pre a b : String} (h : pre ++ a = pre ++ b) : a = b := by
  have hd : pre.data ++ a.data = pre.data ++ b.data := by
    have := congrArg String.data h
    simpa [String.data_append] using this
  have hab : a.data = b.data := by
    exact List.append_cancel_left hd
  cases a
  cases b
  exact congrArg String.mk (by simpa using hab)

theorem mem_assocDelete {κ α : Type} [DecidableEq κ] {m : List (κ × α)} {k : κ} {kv : κ × α}
    (h : kv ∈ assocDelete m k) : kv ∈ m ∧ kv.1 ≠ k := by
  induction m with
  | nil => simp [assocDelete] at h
  | cons kv0 rest ih =>
    obtain ⟨a, b⟩ := kv0
    by_cases hk : a = k
    · simp [assocDelete, hk] at h
      obtain ⟨h1, h2⟩ := ih h
      exact ⟨List.mem_cons_of_mem _ h1, h2⟩
    · simp [assocDelete, hk] at h
      rcases h with h | h
      · refine ⟨by simp [h], ?_⟩
        rw [h]
        simpa using hk
      · obtain ⟨h1, h2⟩ := ih h
        exact ⟨List.mem_cons_of_mem _ h1, h2⟩

theorem foldl_rewriteStep_of_prefixed {pre : String} :
    ∀ (ks : List String) (st : Doc), (∀ k ∈ ks, jsStartsWith k pre = true) →
      List.foldl (rewriteStep pre) st ks = st := by
  intro ks
  induction ks with
  | nil =>
    intro st _
    rfl
  | cons k rest ih =>
    intro st h
    have hk := h k (List.mem_cons_self k rest)
    rw [List.foldl_cons]
    have hstep : rewriteStep pre st k = st := by simp [rewriteStep, hk]
    rw [hstep]
    exact ih st (fun k' hk' => h k' (List.mem_cons_of_mem _ hk'))

theorem foldl_rewriteStep_all_prefixed {pre : String} :
    ∀ (ks : List String) (st : Doc),
      (∀ kv ∈ st, jsStartsWith kv.1 pre = true ∨ kv.1 ∈ ks) →
      ∀ kv ∈ List.foldl (rewriteStep pre) st ks, jsStartsWith kv.1 pre = true := by
  intro ks
  induction ks with
  | nil =>
    intro st h kv hkv
    rcases h kv hkv with h' | h'
    · exact h'
    · simp at h'
  | cons k rest ih =>
    intro st h
    rw [List.foldl_cons]
    refine ih (rewriteStep pre st k) ?_
    intro kv hkv
    by_cases hk : jsStartsWith k pre = true
    · have hstep : rewriteStep pre st k = st := by simp [rewriteStep, hk]
      rw [hstep] at hkv
      rcases h kv hkv with h' | h'
      · exact Or.inl h'
      · rcases List.mem_cons.mp h' with h'' | h''
        · exact Or.inl (h'' ▸ hk)
        · exact Or.inr h''
    · have hkf : jsStartsWith k pre = false := by simpa using hk
      cases hget : assocGet st k with
      | none =>
        have hstep : rewriteStep pre st k = st := by simp [rewriteStep, hkf, hget]
        rw [hstep] at hkv
        rcases h kv hkv with h' | h'
        · exact Or.inl h'
        · rcases List.mem_cons.mp h' with h'' | h''
          · exact absurd h'' ((assocGet_eq_none_iff st k).mp hget kv hkv)
          · exact Or.inr h''
      | some v =>
        have hstep : rewriteStep pre st k = assocDelete (assocSet st (pre ++ k) v) k := by
          simp [rewriteStep, hkf, hget]
        rw [hstep] at hkv
        obtain ⟨hin, hne⟩ := mem_assocDelete hkv
        rcases mem_assocSet hin with h' | h'
        · rw [h']
          exact Or.inl (jsStartsWith_append pre k)
        · rcases h kv h' with h'' | h''
          · exact Or.inl h''
          · rcases List.mem_cons.mp h'' with h3 | h3
            · exact absurd h3 hne
            · exact Or.inr h3

theorem rewriteKeys_all_prefixed (pre : String) (o : Doc) :
    ∀ kv ∈ rewriteKeys pre o, jsStartsWith kv.1 pre = true := by
  refine foldl_rewriteStep_all_prefixed (objKeys o) o ?_
  intro kv hkv
  exact Or.inr (by simpa [objKeys] using List.mem_map_of_mem Prod.fst hkv)

theorem rewriteKeys_idem (pre : String) (o : Doc) :
    rewriteKeys pre (rewriteKeys pre o) = rewriteKeys pre o := by
  refine foldl_rewriteStep_of_prefixed (objKeys (rewriteKeys pre o)) _ ?_
  intro k hk
  simp [objKeys, List.mem_map] at hk
  obtain ⟨v, hv⟩ := hk
  exact rewriteKeys_all_prefixed pre o (k, v) hv

theorem foldl_rewriteStep_get_unprefixed {pre : String} :
    ∀ (ks : List String) (st : Doc) (k : String), jsStartsWith k pre = false → k ∉ ks →
      assocGet (List.foldl (rewriteStep pre) st ks) k = assocGet st k := by
  intro ks
  induction ks with
  | nil =>
    intro st k _ _
    rfl
  | cons k0 rest ih =>
    intro st k hk hmem
    obtain ⟨h1, h2⟩ := not_or.mp (by simpa [List.mem_cons] using hmem)
    rw [List.foldl_cons, ih (rewriteStep pre st k0) k hk h2]
    by_cases hk0 : jsStartsWith k0 pre = true
    · simp [rewriteStep, hk0]
    · have hk0f : jsStartsWith k0 pre = false := by simpa using hk0
      cases hget : assocGet st k0 with
      | none => simp [rewriteStep, hk0f, hget]
      | some v =>
        have hne2 : k ≠ pre ++ k0 := ne_append_of_not_startsWith hk
        have hstep : rewriteStep pre st k0 = assocDelete (assocSet st (pre ++ k0) v) k0 := by
          simp [rewriteStep, hk0f, hget]
        rw [hstep, assocGet_assocDelete_ne _ _ _ h1, assocGet_assocSet_ne _ _ _ _ hne2]

theorem foldl_rewriteStep_get_prefixed {pre : String} :
    ∀ (ks : List String) (st : Doc) (t : String), jsStartsWith t pre = true →
      (∀ k1 ∈ ks, jsStartsWith k1 pre = false → pre ++ k1 ≠ t) →
      assocGet (List.foldl (rewriteStep pre) st ks) t = assocGet st t := by
  intro ks
  induction ks with
  | nil =>
    intro st t _ _
    rfl
  | cons k0 rest ih =>
    intro st t ht hcol
    rw [List.foldl_cons,
      ih (rewriteStep pre st k0) t ht (fun k1 hm hf => hcol k1 (List.mem_cons_of_mem _ hm) hf)]
    by_cases hk0 : jsStartsWith k0 pre = true
    · simp [rewriteStep, hk0]
    · have hk0f : jsStartsWith k0 pre = false := by simpa using hk0
      cases hget : assocGet st k0 with
      | none => simp [rewriteStep, hk0f, hget]
      | some v =>
        have h1 : t ≠ k0 := by
          intro he
          rw [he, hk0f] at ht
          cases ht
        have h2 : t ≠ pre ++ k0 :=
          fun he => hcol k0 (List.mem_cons_self k0 rest) hk0f he.symm
        have hstep : rewriteStep pre st k0 = assocDelete (assocSet st (pre ++ k0) v) k0 := by
          simp [rewriteStep, hk0f, hget]
        rw [hstep, assocGet_assocDelete_ne _ _ _ h1, assocGet_assocSet_ne _ _ _ _ h2]

theorem rewriteKeys_untouched {pre : String} (o : Doc) (t : String)
    (ht : jsStartsWith t pre = true)
    (hcol : ∀ k1 ∈ objKeys o, jsStartsWith k1 pre = false → pre ++ k1 ≠ t) :
    assocGet (rewriteKeys pre o) t = assocGet o t :=
  foldl_rewriteStep_get_prefixed (objKeys o) o t ht hcol

theorem rewriteKeys_rename {pre : String} {o : Doc} {k : String}
    (hnd : (objKeys o).Nodup) (hmem : k ∈ objKeys o) (hk : jsStartsWith k pre = false) :
    assocGet (rewriteKeys pre o) (pre ++ k) = assocGet o k ∧
      assocGet (rewriteKeys pre o) k = none := by
  obtain ⟨ks1, ks2, hsplit⟩ := List.append_of_mem hmem
  have hnd' := hsplit ▸ hnd
  rw [List.nodup_append] at hnd'
  have hk1 : k ∉ ks1 := fun hin => hnd'.2.2 hin (List.mem_cons_self k ks2)
  have hk2 : k ∉ ks2 := (List.nodup_cons.mp hnd'.2.1).1
  obtain ⟨v, hv⟩ := Option.isSome_iff_exists.mp (assocGet_isSome_of_mem_keys hmem)
  unfold rewriteKeys
  rw [hsplit, List.foldl_append, List.foldl_cons]
  have hget1 : assocGet (List.foldl (rewriteStep pre) o ks1) k = some v := by
    rw [foldl_rewriteStep_get_unprefixed ks1 o k hk hk1, hv]
  have hstep : rewriteStep pre (List.foldl (rewriteStep pre) o ks1) k =
      assocDelete (assocSet (List.foldl (rewriteStep pre) o ks1) (pre ++ k) v) k := by
    simp [rewriteStep, hk, hget1]
  rw [hstep]
  constructor
  · rw [foldl_rewriteStep_get_prefixed ks2 _ (pre ++ k) (jsStartsWith_append pre k)
      (fun k1 hm hf he => hk2 (string_append_left_cancel he ▸ hm))]
    rw [assocGet_assocDelete_ne _ _ _ (Ne.symm (ne_append_of_not_startsWith hk)),
      assocGet_assocSet_self, hv]
  · rw [foldl_rewriteStep_get_unprefixed ks2 _ k hk hk2]
    exact assocGet_assocDelete_self _ k

/-- C1 counterexample: the claim states that the rewriting of patchSubdocument
leaves keys already in prefixed shape untouched, for every mapping.  On the
mapping with entries a and likes.a (array field likes), the renamed entry
overwrites the already-prefixed entry likes.a, whose value changes from 2 to
1, so the prefixed key is not left untouched. -/
theorem C1_counterexample :
    rewriteKeys "likes." [("a", Value.vInt 1), ("likes.a", Value.vInt 2)]
        = [("likes.a", Value.vInt 1)] ∧
      assocGet (rewriteKeys "likes." [("a", Value.vInt 1), ("likes.a", Value.vInt 2)]) "likes.a"
        ≠ some (Value.vInt 2) := by
  refine ⟨rfl, ?_⟩
  intro h
  have h2 := Option.some.inj h
  simp at h2

/-- C1 (amended): for every arrayField name and every elementQuery and
partialFields mapping (unique keys, as JS objects have), the rewriting of
patchSubdocument renames each query key k not already starting with
arrayField dot to the prefixed form carrying the value of k, and each
assignment key likewise under the positional prefix; it leaves a key already
in prefixed shape untouched whenever that key is not also the rewrite target
of an unprefixed key (when it is, the renamed entry overwrites it); and it is
idempotent: rewriting an already-rewritten mapping yields the same mapping. -/
theorem C1_rewrite_renames_preserves_idempotent (embeddedField : String)
    (query data : Doc) (hq : (objKeys query).Nodup) (hd : (objKeys data).Nodup) :
    (∀ k, k ∈ objKeys query → jsStartsWith k (embeddedField ++ ".") = false →
        assocGet (rewriteKeys (embeddedField ++ ".") query) (embeddedField ++ "." ++ k)
            = assocGet query k ∧
          assocGet (rewriteKeys (embeddedField ++ ".") query) k = none) ∧
    (∀ t, jsStartsWith t (embeddedField ++ ".") = true →
        (∀ k, k ∈ objKeys query → jsStartsWith k (embeddedField ++ ".") = false →
          embeddedField ++ "." ++ k ≠ t) →
        assocGet (rewriteKeys (embeddedField ++ ".") query) t = assocGet query t) ∧
    rewriteKeys (embeddedField ++ ".") (rewriteKeys (embeddedField ++ ".") query)
        = rewriteKeys (embeddedField ++ ".") query ∧
    (∀ k, k ∈ objKeys data → jsStartsWith k (embeddedField ++ ".$.") = false →
        assocGet (rewriteKeys (embeddedField ++ ".$.") data) (embeddedField ++ ".$." ++ k)
            = assocGet data k ∧
          assocGet (rewriteKeys (embeddedField ++ ".$.") data) k = none) ∧
    (∀ t, jsStartsWith t (embeddedField ++ ".$.") = true →
        (∀ k, k ∈ objKeys data → jsStartsWith k (embeddedField ++ ".$.") = false →
          embeddedField ++ ".$." ++ k ≠ t) →
        assocGet (rewriteKeys (embeddedField ++ ".$.") data) t = assocGet data t) ∧
    rewriteKeys (embeddedField ++ ".$.") (rewriteKeys (embeddedField ++ ".$.") data)
        = rewriteKeys (embeddedField ++ ".$.") data := by
  refine ⟨?_, ?_, rewriteKeys_idem _ _, ?_, ?_, rewriteKeys_idem _ _⟩
  · intro k hm hf
    exact rewriteKeys_rename hq hm hf
  · intro t ht hcol
    exact rewriteKeys_untouched query t ht hcol
  · intro k hm hf
    exact rewriteKeys_rename hd hm hf
  · intro t ht hcol
    exact rewriteKeys_untouched data t ht hcol

theorem C1_rewrite_renames_preserves_idempotent_witness :
    assocGet (rewriteKeys ("likes" ++ ".") [("name", Value.vStr "games")])
        ("likes" ++ "." ++ "name") = assocGet [("name", Value.vStr "games")] "name" ∧
    rewriteKeys ("likes" ++ ".$.") (rewriteKeys ("likes" ++ ".$.") [("name", Value.vStr "trouble")])
        = rewriteKeys ("likes" ++ ".$.") [("name", Value.vStr "trouble")] := by
  have h := C1_rewrite_renames_preserves_idempotent "likes"
    [("name", Value.vStr "games")] [("name", Value.vStr "trouble")] (by decide) (by decide)
  exact ⟨(h.1 "name" (by decide) (by decide)).1, h.2.2.2.2.2⟩

/-- C2 counterexample: the claim states that no audit entry is written when
the wrapped remove finds nothing.  On the empty collection the wrapped remove
returns nothing, yet one REMOVE audit entry is appended. -/
theorem C2_counterexample :
    (AuditedCrudService.remove (fun _ => true) "Anonymous" 0 ⟨[], []⟩).2 = none ∧
    ((AuditedCrudService.remove (fun _ => true) "Anonymous" 0 ⟨[], []⟩).1.audits).length = 1 :=
  ⟨rfl, rfl⟩

/-- C2 (amended): for every filter, when the wrapped remove finds no matching
record, AuditedCrudService.remove still writes exactly one audit entry, with
operation REMOVE, an old field holding null, no new field, and it returns
nothing while leaving the data collection unchanged. -/
theorem C2_remove_without_match_still_audits (p : Doc → Bool) (user : String)
    (now : Nat) (s : AuditedState) (h : s.coll.find? p = none) :
    AuditedCrudService.remove p user now s =
      (⟨s.coll, s.audits ++ [⟨opREMOVE, some Value.vNull, none, user, now⟩]⟩, none) := by
  unfold AuditedCrudService.remove GenericCrudService.remove
  rw [findOneAndDelete_of_none p h]
  rfl

theorem C2_remove_without_match_still_audits_witness :
    AuditedCrudService.remove (fun _ => true) "Anonymous" 3 ⟨[], []⟩ =
      (⟨[], [⟨opREMOVE, some Value.vNull, none, "Anonymous", 3⟩]⟩, none) :=
  C2_remove_without_match_still_audits (fun _ => true) "Anonymous" 3 ⟨[], []⟩ rfl

/-- C4: for every filter and update-operations object, GenericCrudService.update
sends an update whose set clause exists (created when absent), carries the
last-modification timestamp next to every caller-supplied set assignment, and
keeps every other operator; with the default options it returns the
post-update record, or null when no record matches the filter. -/
theorem C4_update_stamps_and_keeps_operators (p : Doc → Bool) (u : UpdateOps)
    (now : Nat) (coll : List Doc) :
    (∃ payload, assocGet (stampSet u now) "$set" = some payload ∧
        assocGet payload modificationDateField = some (Value.vDate now) ∧
        ∀ k, k ≠ modificationDateField →
          assocGet payload k = assocGet ((assocGet u "$set").getD []) k) ∧
    (∀ op, op ≠ "$set" → assocGet (stampSet u now) op = assocGet u op) ∧
    (coll.find? p = none → GenericCrudService.update p u none now coll = (coll, none)) ∧
    (∀ d, coll.find? p = some d →
        (GenericCrudService.update p u none now coll).2
          = some (applyUpdate (stampSet u now) d)) := by
  refine ⟨?_, ?_, ?_, ?_⟩
  · cases hset : assocGet u "$set" with
    | some P =>
      refine ⟨assocSet P modificationDateField (Value.vDate now), ?_, ?_, ?_⟩
      · rw [stampSet]
        simp only [hset, Option.isSome_some, if_true]
        rw [assocGet_assocModify, hset]
        rfl
      · exact assocGet_assocSet_self P modificationDateField (Value.vDate now)
      · intro k hk
        rw [assocGet_assocSet_ne P modificationDateField k (Value.vDate now) hk]
        rfl
    | none =>
      refine ⟨[(modificationDateField, Value.vDate now)], ?_, ?_, ?_⟩
      · rw [stampSet]
        simp only [hset, Option.isSome_none, Bool.false_eq_true, if_false]
        rw [assocGet_assocModify, assocGet_assocSet_self]
        rfl
      · simp [assocGet]
      · intro k hk
        have hmk : ¬modificationDateField = k := fun h => hk h.symm
        simp [assocGet, hmk]
  · intro op hop
    rw [stampSet]
    cases hset : assocGet u "$set" with
    | some P =>
      simp only [hset, Option.isSome_some, if_true]
      exact assocGet_assocModify_ne u "$set" op _ hop
    | none =>
      simp only [hset, Option.isSome_none, Bool.false_eq_true, if_false]
      rw [assocGet_assocModify_ne _ "$set" op _ hop]
      exact assocGet_assocSet_ne u "$set" op [] hop
  · intro h
    unfold GenericCrudService.update
    exact findOneAndUpdate_of_none p (stampSet u now) (none.getD false) h
  · intro d h
    unfold GenericCrudService.update
    rw [findOneAndUpdate_snd, h]
    rfl

theorem C4_update_stamps_and_keeps_operators_witness :
    (GenericCrudService.update (fun _ => true) [("$unset", [("f", Value.vStr "")])] none 7
        [[("x", Value.vInt 0)]]).2
      = some (applyUpdate (stampSet [("$unset", [("f", Value.vStr "")])] 7)
          [("x", Value.vInt 0)]) ∧
    assocGet (stampSet [("$unset", [("f", Value.vStr "")])] 7) "$unset"
      = assocGet [("$unset", [("f", Value.vStr "")])] "$unset" ∧
    GenericCrudService.update (fun _ => false) [("$unset", [("f", Value.vStr "")])] none 7 []
      = ([], none) := by
  have h := C4_update_stamps_and_keeps_operators (fun _ => true)
      [("$unset", [("f", Value.vStr "")])] 7 [[("x", Value.vInt 0)]]
  have h2 := C4_update_stamps_and_keeps_operators (fun _ => false)
      [("$unset", [("f", Value.vStr "")])] 7 []
  exact ⟨h.2.2.2 [("x", Value.vInt 0)] rfl, h.2.1 "$unset" (by decide), h2.2.2.1 rfl⟩

/-- C8 counterexample: the claim states that an update carrying only an unset
of f yields the record with f removed and every other field unchanged.  On
the record with fields _id and f, the result additionally carries the
last-modification timestamp, so it differs from the record with only f
removed. -/
theorem C8_counterexample :
    (GenericCrudService.update (fun _ => true) [("$unset", [("f", Value.vStr "")])] none 7
        [[("_id", Value.vId 1), ("f", Value.vInt 2)]]).2
      = some [("_id", Value.vId 1), ("lastModifiedAt", Value.vDate 7)] ∧
    (GenericCrudService.update (fun _ => true) [("$unset", [("f", Value.vStr "")])] none 7
        [[("_id", Value.vId 1), ("f", Value.vInt 2)]]).2
      ≠ some [("_id", Value.vId 1)] := by
  refine ⟨rfl, ?_⟩
  intro h
  have hEq : (GenericCrudService.update (fun _ => true) [("$unset", [("f", Value.vStr "")])]
      none 7 [[("_id", Value.vId 1), ("f", Value.vInt 2)]]).2
      = some [("_id", Value.vId 1), ("lastModifiedAt", Value.vDate 7)] := rfl
  have h2 := Option.some.inj (hEq.symm.trans h)
  simp at h2

/-- C8 (amended): for every record R possessing field f (f different from the
timestamp field), calling update on R with an update-operations object
containing only the unset of f yields a record equal to R with field f
removed, the last-modification timestamp stamped, and every other field,
including the identifier, unchanged. -/
theorem C8_unset_removes_only_f (p : Doc → Bool) (f : String) (now : Nat)
    (coll : List Doc) (R : Doc) (hf : f ≠ modificationDateField)
    (hpos : (assocGet R f).isSome) (hR : coll.find? p = some R) :
    (GenericCrudService.update p [("$unset", [(f, Value.vStr "")])] none now coll).2
        = some (assocSet (assocDelete R f) modificationDateField (Value.vDate now)) ∧
    assocGet (assocSet (assocDelete R f) modificationDateField (Value.vDate now)) f = none ∧
    assocGet (assocSet (assocDelete R f) modificationDateField (Value.vDate now))
        modificationDateField = some (Value.vDate now) ∧
    ∀ k, k ≠ f → k ≠ modificationDateField →
      assocGet (assocSet (assocDelete R f) modificationDateField (Value.vDate now)) k
        = assocGet R k := by
  refine ⟨?_, ?_, ?_, ?_⟩
  · unfold GenericCrudService.update
    rw [findOneAndUpdate_snd, hR]
    rfl
  · rw [assocGet_assocSet_ne _ modificationDateField f _ hf]
    exact assocGet_assocDelete_self R f
  · exact assocGet_assocSet_self _ _ _
  · intro k hkf hkm
    rw [assocGet_assocSet_ne _ modificationDateField k _ hkm]
    exact assocGet_assocDelete_ne R f k hkf

theorem C8_unset_removes_only_f_witness :
    (GenericCrudService.update (fun _ => true) [("$unset", [("f", Value.vStr "")])] none 7
        [[("_id", Value.vId 1), ("f", Value.vInt 2)]]).2
      = some (assocSet (assocDelete [("_id", Value.vId 1), ("f", Value.vInt 2)] "f")
          modificationDateField (Value.vDate 7)) ∧
    assocGet (assocSet (assocDelete [("_id", Value.vId 1), ("f", Value.vInt 2)] "f")
        modificationDateField (Value.vDate 7)) "_id"
      = assocGet [("_id", Value.vId 1), ("f", Value.vInt 2)] "_id" := by
  have h := C8_unset_removes_only_f (fun _ => true) "f" 7
      [[("_id", Value.vId 1), ("f", Value.vInt 2)]] [("_id", Value.vId 1), ("f", Value.vInt 2)]
      (by decide) rfl rfl
  exact ⟨h.1, h.2.2.2 "_id" (by decide) (by decide)⟩

/-- C3: for every filter, AuditedCrudService.update and AuditedCrudService.patch
first read the pre-image with the filter; when no pre-image exists they leave
the state untouched (no mutation, no audit entry) and return nothing; when a
pre-image exists they perform the wrapped mutation and append exactly one
audit entry with operation UPDATE, old equal to the pre-image, and new equal
to the post-mutation record, which is also the returned value. -/
theorem C3_audited_mutations_preimage_protocol (p : Doc → Bool) (data : Doc)
    (u : UpdateOps) (user : String) (now : Nat) (s : AuditedState) :
    (s.coll.find? p = none →
        AuditedCrudService.patch p data none user now s = (s, none) ∧
        AuditedCrudService.update p u none user now s = (s, none)) ∧
    (∀ oldDoc, s.coll.find? p = some oldDoc →
        AuditedCrudService.patch p data none user now s =
          (⟨(GenericCrudService.patch p data none now s.coll).1,
              s.audits ++ [⟨opUPDATE, some (Value.vDoc oldDoc),
                some (Value.vDoc (patchApply data now oldDoc)), user, now⟩]⟩,
            some (patchApply data now oldDoc)) ∧
        AuditedCrudService.update p u none user now s =
          (⟨(GenericCrudService.update p u none now s.coll).1,
              s.audits ++ [⟨opUPDATE, some (Value.vDoc oldDoc),
                some (Value.vDoc (applyUpdate (stampSet u now) oldDoc)), user, now⟩]⟩,
            some (applyUpdate (stampSet u now) oldDoc))) := by
  constructor
  · intro h
    constructor
    · unfold AuditedCrudService.patch
      rw [h]
    · unfold AuditedCrudService.update
      rw [h]
  · intro oldDoc h
    have hpatch2 : (GenericCrudService.patch p data none now s.coll).2
        = some (patchApply data now oldDoc) := by
      unfold GenericCrudService.patch
      rw [findOneAndUpdate_snd, h]
      rfl
    have hupd2 : (GenericCrudService.update p u none now s.coll).2
        = some (applyUpdate (stampSet u now) oldDoc) := by
      unfold GenericCrudService.update
      rw [findOneAndUpdate_snd, h]
      rfl
    constructor
    · simp only [AuditedCrudService.patch, h, hpatch2, optDoc]
    · simp only [AuditedCrudService.update, h, hupd2, optDoc]

theorem C3_audited_mutations_preimage_protocol_witness :
    AuditedCrudService.patch (fun _ => false) [("a", Value.vInt 1)] none "u" 2 ⟨[], []⟩
      = (⟨[], []⟩, none) ∧
    AuditedCrudService.patch (fun _ => true) [("a", Value.vInt 1)] none "u" 2
        ⟨[[("x", Value.vInt 0)]], []⟩
      = (⟨[(GenericCrudService.patch (fun _ => true) [("a", Value.vInt 1)] none 2
            [[("x", Value.vInt 0)]]).1.head!],
          [⟨opUPDATE, some (Value.vDoc [("x", Value.vInt 0)]),
            some (Value.vDoc (patchApply [("a", Value.vInt 1)] 2 [("x", Value.vInt 0)])),
            "u", 2⟩]⟩,
        some (patchApply [("a", Value.vInt 1)] 2 [("x", Value.vInt 0)])) := by
  have h1 := C3_audited_mutations_preimage_protocol (fun _ => false) [("a", Value.vInt 1)] []
      "u" 2 ⟨[], []⟩
  have h2 := C3_audited_mutations_preimage_protocol (fun _ => true) [("a", Value.vInt 1)] []
      "u" 2 ⟨[[("x", Value.vInt 0)]], []⟩
  exact ⟨(h1.1 rfl).1, (h2.2 [("x", Value.vInt 0)] rfl).1⟩

/-- C5: for every record R first matched by the filter and every partial field
mapping F with unique keys, patch drops every key of F whose value is
undefined, stamps the last-modification timestamp, and yields the record R
with the remaining fields of F merged in and none of the other fields of R
removed; it returns the post-update record, or null when no record matches. -/
theorem C5_patch_is_field_merge (p : Doc → Bool) (data : Doc) (now : Nat)
    (coll : List Doc) (R : Doc) (hnd : (objKeys data).Nodup) :
    (coll.find? p = none → (GenericCrudService.patch p data none now coll).2 = none) ∧
    (coll.find? p = some R →
      (GenericCrudService.patch p data none now coll).2 = some (patchApply data now R) ∧
      assocGet (patchApply data now R) modificationDateField = some (Value.vDate now) ∧
      (∀ k v, k ≠ modificationDateField → assocGet data k = some v → v.isUndef = false →
        assocGet (patchApply data now R) k = some v) ∧
      (∀ k, k ≠ modificationDateField → assocGet data k = some Value.vUndef →
        assocGet (patchApply data now R) k = assocGet R k) ∧
      (∀ k, k ≠ modificationDateField → assocGet data k = none →
        assocGet (patchApply data now R) k = assocGet R k) ∧
      (∀ k, (assocGet R k).isSome → (assocGet (patchApply data now R) k).isSome)) := by
  have hclean_nd : (objKeys (cleanData data)).Nodup := by
    refine List.Nodup.sublist ?_ hnd
    exact List.Sublist.map Prod.fst (List.filter_sublist data)
  have hkvs_nd : (objKeys (patchData data now)).Nodup := by
    unfold patchData
    rw [objKeys_assocSet]
    by_cases hmem : modificationDateField ∈ objKeys (cleanData data)
    · simpa [hmem] using hclean_nd
    · simp only [hmem, if_false]
      rw [List.nodup_append]
      refine ⟨hclean_nd, List.nodup_singleton _, ?_⟩
      intro a ha hb
      simp at hb
      exact hmem (hb ▸ ha)
  have hnotclean : ∀ k, k ≠ modificationDateField → k ∉ objKeys (cleanData data) →
      k ∉ objKeys (patchData data now) := by
    intro k hkm hkc hk
    unfold patchData at hk
    rw [objKeys_assocSet] at hk
    by_cases hmem : modificationDateField ∈ objKeys (cleanData data)
    · simp only [hmem, if_true] at hk
      exact hkc hk
    · simp only [hmem, if_false] at hk
      rcases List.mem_append.mp hk with hk | hk
      · exact hkc hk
      · simp at hk
        exact hkm hk
  constructor
  · intro h
    unfold GenericCrudService.patch
    rw [findOneAndUpdate_snd, h]
    rfl
  · intro h
    refine ⟨?_, ?_, ?_, ?_, ?_, ?_⟩
    · unfold GenericCrudService.patch
      rw [findOneAndUpdate_snd, h]
      rfl
    · exact assocGet_setAll_mem_nodup hkvs_nd
        (mem_assocSet_self (cleanData data) modificationDateField (Value.vDate now))
    · intro k v hkm hkv hdef
      have hmemdata : (k, v) ∈ data := assocGet_mem hkv
      have hmemclean : (k, v) ∈ cleanData data := by
        refine List.mem_filter.mpr ⟨hmemdata, ?_⟩
        simp [hdef]
      have hmemkvs : (k, v) ∈ patchData data now := by
        unfold patchData
        exact (mem_assocSet_ne hkm).mpr hmemclean
      exact assocGet_setAll_mem_nodup hkvs_nd hmemkvs
    · intro k hkm hkv
      have hkc : k ∉ objKeys (cleanData data) := by
        intro hk
        simp only [objKeys, List.mem_map] at hk
        obtain ⟨⟨k', v'⟩, hmem', hfst⟩ := hk
        obtain ⟨hmemd, hkeep⟩ := List.mem_filter.mp hmem'
        have : assocGet data k = some v' := by
          rw [← hfst] at hkv ⊢
          exact assocGet_of_mem_nodup hnd hmemd
        rw [hkv] at this
        have hv' : v' = Value.vUndef := (Option.some.inj this).symm
        rw [hv'] at hkeep
        simp [Value.isUndef] at hkeep
      exact assocGet_setAll_not_mem (hnotclean k hkm hkc)
    · intro k hkm hkv
      have hkc : k ∉ objKeys (cleanData data) := by
        intro hk
        have hs := assocGet_isSome_of_mem_keys hk
        obtain ⟨v', hv'⟩ := Option.isSome_iff_exists.mp hs
        have hmemd : (k, v') ∈ data := (List.mem_filter.mp (assocGet_mem hv')).1
        have := assocGet_of_mem_nodup hnd hmemd
        rw [hkv] at this
        cases this
      exact assocGet_setAll_not_mem (hnotclean k hkm hkc)
    · intro k hs
      exact isSome_setAll R (patchData data now) k hs

theorem C5_patch_is_field_merge_witness :
    (GenericCrudService.patch (fun _ => true) [("a", Value.vInt 1), ("b", Value.vUndef)]
        none 3 [[("x", Value.vInt 5)]]).2
      = some (patchApply [("a", Value.vInt 1), ("b", Value.vUndef)] 3 [("x", Value.vInt 5)]) ∧
    assocGet (patchApply [("a", Value.vInt 1), ("b", Value.vUndef)] 3 [("x", Value.vInt 5)]) "a"
      = some (Value.vInt 1) ∧
    assocGet (patchApply [("a", Value.vInt 1), ("b", Value.vUndef)] 3 [("x", Value.vInt 5)]) "b"
      = assocGet [("x", Value.vInt 5)] "b" ∧
    assocGet (patchApply [("a", Value.vInt 1), ("b", Value.vUndef)] 3 [("x", Value.vInt 5)])
        modificationDateField = some (Value.vDate 3) ∧
    (GenericCrudService.patch (fun _ => false) [("a", Value.vInt 1)] none 3 []).2 = none := by
  have h := C5_patch_is_field_merge (fun _ => true) [("a", Value.vInt 1), ("b", Value.vUndef)]
      3 [[("x", Value.vInt 5)]] [("x", Value.vInt 5)] (by decide)
  have h0 := C5_patch_is_field_merge (fun _ => false) [("a", Value.vInt 1)] 3 [] []
      (by decide)
  obtain ⟨h1, h2, h3, h4, h5, h6⟩ := h.2 rfl
  exact ⟨h1, h3 "a" (Value.vInt 1) (by decide) rfl rfl, h4 "b" (by decide) rfl, h2,
    h0.1 rfl⟩

/-- C6 counterexample: the claim states that listSubdocuments returns an empty
sequence, not null, when the parent exists but the element filter matches no
element.  On a parent holding one element with a filter matching nothing, the
call returns null. -/
theorem C6_counterexample :
    GenericCrudService.listSubdocuments (Value.vId 1) "likes" (fun _ => false)
        [[("_id", Value.vId 1), ("likes", Value.vArr [Value.vInt 5])]] = none ∧
      (none : Option (List Value)) ≠ some ([] : List Value) := by
  refine ⟨rfl, ?_⟩
  intro h
  cases h

/-- C6 (amended): for every id, arrayField and element filter,
listSubdocuments returns null when no parent record with that id exists, and
it also returns null, not an empty sequence, when the parent exists but the
element filter matches none of the elements of the array. -/
theorem C6_listSubdocuments_null_cases (idv : Value) (embeddedField : String)
    (cond : Value → Bool) (coll : List Doc) :
    (coll.filter (idFilter idv) = [] →
      GenericCrudService.listSubdocuments idv embeddedField cond coll = none) ∧
    (∀ d rest xs, embeddedField ≠ "_id" → coll.filter (idFilter idv) = d :: rest →
      assocGet d embeddedField = some (Value.vArr xs) → xs.filter cond = [] →
      GenericCrudService.listSubdocuments idv embeddedField cond coll = none) := by
  constructor
  · intro h
    unfold GenericCrudService.listSubdocuments
    rw [h]
    rfl
  · intro d rest xs hne h harr hfil
    unfold GenericCrudService.listSubdocuments
    rw [h]
    simp only [List.map_cons, List.head?_cons]
    unfold projectFiltered
    rw [harr]
    dsimp only
    rw [hfil]
    have hid : ¬("_id" = embeddedField) := fun he => hne he.symm
    simp [assocGet, hid]

theorem C6_listSubdocuments_null_cases_witness :
    GenericCrudService.listSubdocuments (Value.vId 2) "likes" (fun _ => true)
        [[("_id", Value.vId 1), ("likes", Value.vArr [Value.vInt 5])]] = none ∧
    GenericCrudService.listSubdocuments (Value.vId 1) "likes" (fun _ => false)
        [[("_id", Value.vId 1), ("likes", Value.vArr [Value.vInt 5])]] = none := by
  have h1 := C6_listSubdocuments_null_cases (Value.vId 2) "likes" (fun _ => true)
      [[("_id", Value.vId 1), ("likes", Value.vArr [Value.vInt 5])]]
  have h2 := C6_listSubdocuments_null_cases (Value.vId 1) "likes" (fun _ => false)
      [[("_id", Value.vId 1), ("likes", Value.vArr [Value.vInt 5])]]
  refine ⟨h1.1 rfl, h2.2 [("_id", Value.vId 1), ("likes", Value.vArr [Value.vInt 5])] []
      [Value.vInt 5] (by decide) rfl rfl rfl⟩

/-- C7: the claim states that the byId aliases of AuditedCrudService normalize
the identifier and delegate to the filter-based form.  The source of the
first AuditedCrudService class instead calls this.generateObjectId, a method
defined neither on the class nor on its parent, so every such call raises a
TypeError before reaching the filter-based operation. -/
theorem C7_byId_aliases_raise_typeError (idv : Value) (data : Doc) (u : UpdateOps)
    (ro : Option Bool) (user : String) (now : Nat) (s : AuditedState) :
    auditedHasMethod "generateObjectId" = false ∧
    AuditedCrudService.patchById idv data ro user now s
        = JsResult.typeError "this.generateObjectId is not a function" ∧
    AuditedCrudService.updateById idv u ro user now s
        = JsResult.typeError "this.generateObjectId is not a function" ∧
    AuditedCrudService.removeById idv user now s
        = JsResult.typeError "this.generateObjectId is not a function" :=
  ⟨rfl, rfl, rfl, rfl⟩

/-- C9: every audit entry appended by an AuditedCrudService write operation
satisfies the shape invariant: a CREATE entry has a new image and no old
field, a REMOVE entry has an old field and no new field, an UPDATE entry has
both. -/
theorem C9_audit_entries_shape (document data : Doc) (u : UpdateOps) (p : Doc → Bool)
    (ro : Option Bool) (user : String) (now : Nat) (s : AuditedState) :
    (∀ e, e ∈ (AuditedCrudService.create document user now s).1.audits →
      e ∈ s.audits ∨ auditShapeOk e) ∧
    (∀ e, e ∈ (AuditedCrudService.patch p data ro user now s).1.audits →
      e ∈ s.audits ∨ auditShapeOk e) ∧
    (∀ e, e ∈ (AuditedCrudService.update p u ro user now s).1.audits →
      e ∈ s.audits ∨ auditShapeOk e) ∧
    (∀ e, e ∈ (AuditedCrudService.remove p user now s).1.audits →
      e ∈ s.audits ∨ auditShapeOk e) := by
  have hCR : opCREATE ≠ opREMOVE := by decide
  have hCU : opCREATE ≠ opUPDATE := by decide
  have hUC : opUPDATE ≠ opCREATE := by decide
  have hUR : opUPDATE ≠ opREMOVE := by decide
  have hRC : opREMOVE ≠ opCREATE := by decide
  have hRU : opREMOVE ≠ opUPDATE := by decide
  refine ⟨?_, ?_, ?_, ?_⟩
  · intro e he
    unfold AuditedCrudService.create at he
    rcases List.mem_append.mp he with he | he
    · exact Or.inl he
    · simp at he
      rw [he]
      exact Or.inr ⟨fun _ => ⟨rfl, rfl⟩, fun hop => absurd hop hCR, fun hop => absurd hop hCU⟩
  · intro e he
    unfold AuditedCrudService.patch at he
    cases hfind : s.coll.find? p with
    | none =>
      rw [hfind] at he
      exact Or.inl he
    | some oldDoc =>
      rw [hfind] at he
      rcases List.mem_append.mp he with he | he
      · exact Or.inl he
      · simp at he
        rw [he]
        exact Or.inr ⟨fun hop => absurd hop hUC, fun hop => absurd hop hUR,
          fun _ => ⟨rfl, rfl⟩⟩
  · intro e he
    unfold AuditedCrudService.update at he
    cases hfind : s.coll.find? p with
    | none =>
      rw [hfind] at he
      exact Or.inl he
    | some oldDoc =>
      rw [hfind] at he
      rcases List.mem_append.mp he with he | he
      · exact Or.inl he
      · simp at he
        rw [he]
        exact Or.inr ⟨fun hop => absurd hop hUC, fun hop => absurd hop hUR,
          fun _ => ⟨rfl, rfl⟩⟩
  · intro e he
    unfold AuditedCrudService.remove at he
    rcases List.mem_append.mp he with he | he
    · exact Or.inl he
    · simp at he
      rw [he]
      exact Or.inr ⟨fun hop => absurd hop hRC, fun _ => ⟨rfl, rfl⟩,
        fun hop => absurd hop hRU⟩

theorem C9_audit_entries_shape_witness :
    (⟨opCREATE, none,
        some (Value.vDoc (assocSet [] creationDateField (Value.vDate 0))), "u", 0⟩ : AuditEntry)
        ∈ (⟨[], []⟩ : AuditedState).audits ∨
      auditShapeOk ⟨opCREATE, none,
        some (Value.vDoc (assocSet [] creationDateField (Value.vDate 0))), "u", 0⟩ := by
  have h := C9_audit_entries_shape [] [] [] (fun _ => true) none "u" 0 ⟨[], []⟩
  exact h.1 ⟨opCREATE, none,
    some (Value.vDoc (assocSet [] creationDateField (Value.vDate 0))), "u", 0⟩ (by simp
      [AuditedCrudService.create, GenericCrudService.create])

/-- C10: the operations mutate their caller-supplied argument objects in
place: create writes the creation timestamp into the document cell of the
caller, patch strips undefined entries from and stamps the timestamp into the
data cell, patchSubdocument rewrites the keys of the query and data cells in
place (inserting the parent identifier into the query cell, the data cell
then also receiving the patch preprocessing), and getSubdocument merges the
two inclusion entries into the projection cell. -/
theorem C10_mutations_in_place (h : Heap) (docRef dataRef queryRef projRef : Nat)
    (document data query proj : Doc) (p : Doc → Bool) (interp : Doc → Doc → Bool)
    (idv : Value) (embeddedField : String) (ro : Option Bool) (now : Nat)
    (coll : List Doc)
    (hdoc : assocGet h docRef = some document)
    (hdata : assocGet h dataRef = some data)
    (hquery : assocGet h queryRef = some query)
    (hproj : assocGet h projRef = some proj)
    (hqd : queryRef ≠ dataRef) :
    assocGet (GenericCrudService.createRef docRef now h coll).1 docRef
        = some (assocSet document creationDateField (Value.vDate now)) ∧
    assocGet (GenericCrudService.patchRef p dataRef ro now h coll).1 dataRef
        = some (patchData data now) ∧
    assocGet (GenericCrudService.patchSubdocumentRef idv embeddedField queryRef dataRef
          interp ro now h coll).1 queryRef
        = some (patchSubdocumentQuery idv embeddedField query) ∧
    assocGet (GenericCrudService.patchSubdocumentRef idv embeddedField queryRef dataRef
          interp ro now h coll).1 dataRef
        = some (patchData (patchSubdocumentData embeddedField data) now) ∧
    assocGet (GenericCrudService.getSubdocumentRef p embeddedField projRef h coll).1 projRef
        = some (assocSet (assocSet proj embeddedField (Value.vInt 1))
            (embeddedField ++ ".$") (Value.vInt 1)) := by
  have hdq : dataRef ≠ queryRef := fun he => hqd he.symm
  refine ⟨?_, ?_, ?_, ?_, ?_⟩
  · unfold GenericCrudService.createRef
    rw [hdoc]
    exact assocGet_assocSet_self h docRef _
  · unfold GenericCrudService.patchRef
    rw [hdata]
    exact assocGet_assocSet_self h dataRef _
  · unfold GenericCrudService.patchSubdocumentRef
    rw [hquery, hdata]
    unfold GenericCrudService.patchRef
    dsimp only
    rw [assocGet_assocSet_self]
    dsimp only
    rw [assocGet_assocSet_ne _ dataRef queryRef _ hqd,
      assocGet_assocSet_ne _ dataRef queryRef _ hqd,
      assocGet_assocSet_self]
  · unfold GenericCrudService.patchSubdocumentRef
    rw [hquery, hdata]
    unfold GenericCrudService.patchRef
    dsimp only
    rw [assocGet_assocSet_self]
    dsimp only
    rw [assocGet_assocSet_self]
  · unfold GenericCrudService.getSubdocumentRef
    rw [hproj]
    exact assocGet_assocSet_self h projRef _

theorem C10_mutations_in_place_witness :
    assocGet (GenericCrudService.createRef 0 5 [(0, []), (1, [("a", Value.vInt 1)]),
          (2, [("b", Value.vInt 2)]), (3, [])] []).1 0
        = some (assocSet [] creationDateField (Value.vDate 5)) ∧
    assocGet (GenericCrudService.patchSubdocumentRef (Value.vId 9) "likes" 2 1
          (fun _ _ => true) none 5 [(0, []), (1, [("a", Value.vInt 1)]),
          (2, [("b", Value.vInt 2)]), (3, [])] []).1 2
        = some (patchSubdocumentQuery (Value.vId 9) "likes" [("b", Value.vInt 2)]) ∧
    assocGet (GenericCrudService.getSubdocumentRef (fun _ => true) "likes" 3
          [(0, []), (1, [("a", Value.vInt 1)]), (2, [("b", Value.vInt 2)]), (3, [])] []).1 3
        = some (assocSet (assocSet [] "likes" (Value.vInt 1)) ("likes" ++ ".$")
            (Value.vInt 1)) := by
  have h := C10_mutations_in_place
      [(0, []), (1, [("a", Value.vInt 1)]), (2, [("b", Value.vInt 2)]), (3, [])]
      0 1 2 3 [] [("a", Value.vInt 1)] [("b", Value.vInt 2)] []
      (fun _ => true) (fun _ _ => true) (Value.vId 9) "likes" none 5 []
      rfl rfl rfl rfl (by decide)
  exact ⟨h.1, h.2.2.1, h.2.2.2.2⟩
